import Mathlib

/-!
Verification of the dynamic-input socket synchronizer and the display/value
execution handlers of the ComfyUI-Mockba extension scripts.

The definitions below are a shallow embedding of the JavaScript source:
* `src/js/common.js` — `onConnectionsChange` for nodes with dynamic inputs
  (`mbImageBatch`, `mbAudioCat`, `mbSelect`, `mbDemux`, `mbEval`, `mbExec`),
  split into its sequential phases `trimStep`, `normalizeStep`, `renameStep`,
  `selectStep`, plus the hidden-marker helpers of the `mbExec`/`mbEval`
  "Hide Code" button;
* `src/js/value.js` — the `mbValue` `onExecuted` handler;
* `src/js/display.js` — the `mbDisplay` `onExecuted` handler.

JavaScript values that may be `undefined`/`null` are modelled with `Option`;
JavaScript arrays are modelled as Lean lists (the claims assume dense,
well-formed arrays).  A JS property access that throws a `TypeError` on
`null`/`undefined` is modelled in the `Except Unit` monad where it can
actually be reached.
-/

namespace Mockba

/-- An entry of `node.inputs`: a LiteGraph input slot.  `link == undefined`
and `link == null` are both modelled by `none`. -/
structure Slot where
  name : String
  link : Option Int
  ty : Option String
deriving DecidableEq, Repr

/-- `inp.name == 'select' || inp.name == 'code'` — the fixed special slots
that the synchronizer must never rename or remove. -/
def isSpecialName (s : String) : Bool :=
  s == "select" || s == "code"

/-- A slot is special when its name is `select` or `code`. -/
def Slot.isSpecial (s : Slot) : Bool :=
  isSpecialName s.name

/-- Options object of the `select` widget (`options.min` / `options.max`);
fields may be `undefined` before first assignment. -/
structure SelOptions where
  min : Option Int
  max : Option Int
deriving DecidableEq, Repr

/-- A node widget; only the fields used by `onConnectionsChange` are kept.
`options` and `value` may be `undefined`. -/
structure Widget where
  name : String
  options : Option SelOptions
  value : Option Int
deriving DecidableEq, Repr

/-- The node state touched by `onConnectionsChange`: its input slots, its
output slots (only `outputs[0].type` is read), and its widget list (which
may be `undefined`). -/
structure Node where
  inputs : List Slot
  outputs : List Slot
  widgets : Option (List Widget)
deriving DecidableEq, Repr

/-- JS `String.prototype.includes`, used on `new Error().stack`. -/
def jsIncludes (s pat : String) : Bool :=
  decide (pat.data <:+: s.data)

/-- `converted_count`: number of present special input slots
(`this.inputs.find(x => x.name == "select")` and likewise for `code`). -/
def convertedCount (n : Node) : Nat :=
  (if (n.inputs.find? (fun x => x.name == "select")).isSome then 1 else 0) +
  (if (n.inputs.find? (fun x => x.name == "code")).isSome then 1 else 0)

/-- The loop
`for (let i = 0; i < this.inputs.length; i++) { ... if (name != 'select' && name != 'code') push({inp, idx: i}) }`
building `dynamicEntries`, with the running global index made explicit. -/
def dynEntriesFrom (i : Nat) : List Slot → List (Nat × Slot)
  | [] => []
  | s :: rest =>
    if !s.isSpecial then (i, s) :: dynEntriesFrom (i + 1) rest
    else dynEntriesFrom (i + 1) rest

/-- `dynamicEntries`: the dynamic (non-special) input slots paired with
their global index in `this.inputs`. -/
def dynamicEntries (inputs : List Slot) : List (Nat × Slot) :=
  dynEntriesFrom 0 inputs

/-- The dynamic (non-special) slots of an input list, in order. -/
def dynamicSlots (inputs : List Slot) : List Slot :=
  inputs.filter (fun s => !s.isSpecial)

/-- The loop
`for (let i = 0; i < xs.length; i++) { if (xs[i].link != undefined) last = i; }`
computing the position of the last connected slot (`-1` when none). -/
def lcLoop (acc : Int) (i : Nat) : List Slot → Int
  | [] => acc
  | s :: rest => lcLoop (if s.link.isSome then (i : Int) else acc) (i + 1) rest

/-- Position (0-based, `-1` when none) of the last slot carrying a link. -/
def lastConnectedOf (xs : List Slot) : Int :=
  lcLoop (-1) 0 xs

/-- The downward scan
`for (let i = this.inputs.length - 1; i >= 0; i--) { if (inpt && not special) { lastDynamicIndex = i; break; } }`:
the global index of the last dynamic slot, `-1` when there is none. -/
def lastDynamicIndex (inputs : List Slot) : Int :=
  match (dynamicEntries inputs).getLast? with
  | some e => (e.1 : Int)
  | none => -1

/-- The trim phase of `onConnectionsChange` (common.js lines 347-373): on a
user-initiated disconnect (stack-trace heuristics), remove the affected
slot, but only when it is the last dynamic slot. -/
def trimStep (n : Node) (index : Nat) (connected : Bool) (trace : String) : Node :=
  if !connected && decide (n.inputs.length > 1 + convertedCount n) then
    -- const trace = stackTrace || ""; const inputAtIndex = this.inputs[index];
    match n.inputs.get? index with
    | some inputAtIndex =>
      if !jsIncludes trace "LGraphNode.prototype.connect" &&
         !jsIncludes trace "LGraphNode.connect" &&
         !jsIncludes trace "loadGraphData" &&
         inputAtIndex.name != "select" && inputAtIndex.name != "code" then
        if (index : Int) = lastDynamicIndex n.inputs then
          { n with inputs := n.inputs.eraseIdx index }
        else n
      else n
    | none => n
  else n

/-- The removal loop of the normalize phase:
`for (let i = cur - 1; i >= desired; i--) { const g = dynamicEntries[i].idx; if (this.inputs[g] && this.inputs[g].link == undefined) this.removeInput(g); }`.
It receives the visited global indices (descending). -/
def removeLoop : List Slot → List Nat → List Slot
  | inputs, [] => inputs
  | inputs, g :: gs =>
    match inputs.get? g with
    | some s =>
      if s.link.isNone then removeLoop (inputs.eraseIdx g) gs
      else removeLoop inputs gs
    | none => removeLoop inputs gs

/-- `addInput(name, type)` / `addInput(name)` — LiteGraph appends a fresh,
unconnected slot. -/
def newSlot (nm : String) (ty : Option String) : Slot :=
  { name := nm, link := none, ty := ty }

/-- The names generated by the addition loop:
`${input_name}${currentDynamicCount + i + 1}` for `i = 0 .. k-1`. -/
def addNames (inputName : String) (cur k : Nat) : List String :=
  (List.range k).map (fun i => inputName ++ toString (cur + i + 1))

/-- The type given to freshly added inputs:
`const outType = (this.outputs && this.outputs[0]) ? this.outputs[0].type : undefined;`
followed by `typeof outType === 'string' && outType !== '*'` — only a
concrete string type is forwarded. -/
def slotTyOf (outputs : List Slot) : Option String :=
  match (outputs.get? 0).bind Slot.ty with
  | some t => if t != "*" then some t else none
  | none => none

/-- The normalize phase (common.js lines 376-415): enforce exactly one free
dynamic input after the last connected one, removing trailing free dynamic
slots or appending fresh ones. -/
def normalizeStep (inputName : String) (n : Node) : Node :=
  let entries := dynamicEntries n.inputs
  let p := lastConnectedOf (entries.map Prod.snd)
  let desired : Int := max 1 (p + 2)
  let cur := entries.length
  if (cur : Int) > desired then
    { n with inputs := removeLoop n.inputs (((entries.drop desired.toNat).reverse).map Prod.fst) }
  else if (cur : Int) < desired then
    { n with inputs := n.inputs ++
        (addNames inputName cur (desired.toNat - cur)).map (fun nm => newSlot nm (slotTyOf n.outputs)) }
  else n

/-- The rename loop (common.js lines 417-425): every non-special slot is
renamed to `${input_name}${slot_i}` with `slot_i` starting at 1 and
incrementing only over non-special slots. -/
def renameLoop (inputName : String) (k : Nat) : List Slot → List Slot
  | [] => []
  | s :: rest =>
    if !s.isSpecial then
      { s with name := inputName ++ toString k } :: renameLoop inputName (k + 1) rest
    else
      s :: renameLoop inputName k rest

/-- The rename phase of `onConnectionsChange`. -/
def renameStep (inputName : String) (n : Node) : Node :=
  { n with inputs := renameLoop inputName 1 n.inputs }

/-- `selectWidget.value || 0`. -/
def jsOr0 (v : Option Int) : Int :=
  match v with
  | none => 0
  | some x => if x = 0 then 0 else x

/-- The update applied to the `select` widget (common.js lines 445-457). -/
def updateSelect (lastConnected : Int) (w : Widget) : Widget :=
  if lastConnected = -1 then
    { w with options := some { min := some 0, max := some 0 }, value := some 0 }
  else
    { w with
      options := some { min := some 1, max := some (lastConnected + 1) },
      value := some (min (max (jsOr0 w.value) 1) (lastConnected + 1)) }

/-- `this.widgets.find(w => w.name === 'select')` returns a reference into
the widget list; mutating it updates the first matching widget in place. -/
def updateFirstSelect (f : Widget → Widget) : List Widget → List Widget
  | [] => []
  | w :: ws =>
    if w.name == "select" then f w :: ws
    else w :: updateFirstSelect f ws

/-- The selector-range phase (common.js lines 427-460), run only for
`mbSelect`: recompute the current dynamic inputs, find the last connected
one, and update the `select` widget's range and value. -/
def selectStep (isSelect : Bool) (n : Node) : Node :=
  if isSelect then
    match n.widgets with
    | none => n
    | some ws =>
      let lastConnected := lastConnectedOf (dynamicSlots n.inputs)
      { n with widgets := some (updateFirstSelect (updateSelect lastConnected) ws) }
  else n

/-- `nodeType.prototype.onConnectionsChange` (common.js lines 332-467).
`ty` is the connection direction (`1` = input), `linkInfo` the link
metadata (early return when absent), `trace` the `new Error().stack`
string observed by the trim heuristics.  The final
`setSize`/`setDirtyCanvas` calls are presentational and have no effect on
the modelled state. -/
def onConnectionsChange (inputName : String) (isSelect : Bool) (n : Node)
    (ty : Nat) (index : Nat) (connected : Bool) (linkInfo : Option Unit)
    (trace : String) : Node :=
  match linkInfo with
  | none => n
  | some _ =>
    if ty ≠ 1 then n
    else
      selectStep isSelect (renameStep inputName (normalizeStep inputName
        (trimStep n index connected trace)))

/-- The dynamic-input prefixes actually used by common.js:
`image` (mbImageBatch), `audio` (mbAudioCat), `i` (mbEval/mbExec),
`input` (default, mbSelect/mbDemux). -/
def isKindName (s : String) : Prop :=
  s = "image" ∨ s = "audio" ∨ s = "i" ∨ s = "input"

/-- A connection-change event as delivered by the host: the host first
updates `inputs[idx].link`, then invokes `onConnectionsChange` with
`connected` reflecting whether a link was set. -/
structure Event where
  idx : Nat
  lk : Option Int
  trace : String
deriving DecidableEq, Repr

/-- Host-side link mutation preceding the callback. -/
def setSlotLink : List Slot → Nat → Option Int → List Slot
  | [], _, _ => []
  | s :: rest, 0, lk => { s with link := lk } :: rest
  | s :: rest, Nat.succ i, lk => s :: setSlotLink rest i lk

/-- One connect/disconnect event processed by the handler. -/
def applyEvent (inputName : String) (isSelect : Bool) (n : Node) (e : Event) : Node :=
  onConnectionsChange inputName isSelect
    { n with inputs := setSlotLink n.inputs e.idx e.lk }
    1 e.idx e.lk.isSome (some ()) e.trace

/-- The amended socket-list invariant: the number of dynamic slots is
`max 1 (lastConnected + 2)` — exactly one dynamic slot follows the last
connected one, and a single (free) dynamic slot exists when nothing is
connected. -/
def dynInv (n : Node) : Prop :=
  ((dynamicSlots n.inputs).length : Int) =
    max 1 (lastConnectedOf (dynamicSlots n.inputs) + 2)

/-!
### Hidden-marker helpers (common.js lines 198-201, mockba.js lines 296-314)

JavaScript strings are modelled as their sequence of code units
(`List Char`); `substring(i)` is `List.drop i` (it clamps past the end),
`startsWith` is code-unit prefix comparison, and string truthiness is
non-emptiness.
-/

/-- JS `code.startsWith(pat)` on code-unit sequences. -/
def jsStartsWith : List Char → List Char → Bool
  | _, [] => true
  | [], _ :: _ => false
  | c :: cs, d :: ds => c == d && jsStartsWith cs ds

/-- `const HIDDEN_MARKER = "# __HIDDEN__";` -/
def HIDDEN_MARKER : List Char :=
  "# __HIDDEN__".data

/-- `const isCodeHidden = (code) => code.startsWith(HIDDEN_MARKER);` -/
def isCodeHidden (code : List Char) : Bool :=
  jsStartsWith code HIDDEN_MARKER

/-- `const addHiddenMarker = (code) => !isCodeHidden(code) ? (code ? HIDDEN_MARKER + "\n" + code : HIDDEN_MARKER) : code;` -/
def addHiddenMarker (code : List Char) : List Char :=
  if !isCodeHidden code then
    (if code ≠ [] then HIDDEN_MARKER ++ '\n' :: code else HIDDEN_MARKER)
  else code

/-- `const removeHiddenMarker = (code) => isCodeHidden(code) ? code.substring(HIDDEN_MARKER.length + 1) : code;` -/
def removeHiddenMarker (code : List Char) : List Char :=
  if isCodeHidden code then code.drop (HIDDEN_MARKER.length + 1) else code

/-!
### `mbValue.onExecuted` (value.js lines 77-111)

The execution-result value is a dynamically-typed JS value.  Numbers carry
their `Number.isInteger` flag and their display string; plain objects carry
the outcomes of the operations the formatter may perform on them —
`JSON.stringify(value.shape)` and `${value}` — each of which can throw in
JS (circular structures, throwing `toString`), modelled with
`Except Unit String`.
-/

/-- A JS value as discriminated by the `mbValue` formatter chain. -/
inductive JSVal where
  | num (isInt : Bool) (s : String)
  | str (s : String)
  | arr (elems : List JSVal)
  | bool (b : Bool)
  | null
  | undef
  | obj (shape : Option (Except Unit String)) (ctor : Option String)
        (toStr : Except Unit String)
  | other (typeName : String) (s : String)

/-- The body of the `try` block of `mbValue.onExecuted`: the branch chain
computing `displayTitle` from `value` and `showType`.  An `error` result is
a thrown JS exception (caught by the surrounding `catch`). -/
def formatValue (showType : Bool) (v : JSVal) : Except Unit String :=
  match v with
  | JSVal.num isInt s =>
    Except.ok (if showType then (if isInt then "INT: " else "FLOAT: ") ++ s else s)
  | JSVal.str s =>
    let displayStr := if s.length > 25 then s.take 25 ++ "..." else s
    Except.ok (if showType then "STRING: " ++ displayStr else displayStr)
  | JSVal.arr elems =>
    let t := "[" ++ toString elems.length ++ " items]"
    Except.ok (if showType then "LIST: " ++ t else t)
  | JSVal.bool b =>
    Except.ok (if showType then "BOOLEAN: " ++ toString b else toString b)
  | JSVal.null =>
    Except.ok (if showType then "NULL: null" else "null")
  | JSVal.undef =>
    Except.ok (if showType then "UNDEFINED: undefined" else "undefined")
  | JSVal.obj shape ctor toStr =>
    match shape with
    | some sh =>
      -- `value && typeof value === 'object' && value.shape` branch
      match sh with
      | Except.ok s => Except.ok (if showType then "TENSOR: " ++ s else s)
      | Except.error e => Except.error e
    | none =>
      -- `value && typeof value === 'object'` branch
      let typeName := ctor.getD "OBJECT"
      if showType then Except.ok (typeName.toUpper ++ ": <object>")
      else
        match toStr with
        | Except.ok s => Except.ok s
        | Except.error e => Except.error e
  | JSVal.other typeName s =>
    Except.ok (if showType then typeName.toUpper ++ ": " ++ s else s)

/-- JS `x[0]` on the `message.value` field: throws a `TypeError` on
`null`/`undefined`, yields the first element of an array (or `undefined`
when empty), the first code unit of a string, and `undefined` on other
primitives/objects without an index property. -/
def jsIndex0 : JSVal → Except Unit JSVal
  | JSVal.null => Except.error ()
  | JSVal.undef => Except.error ()
  | JSVal.arr elems =>
    match elems with
    | [] => Except.ok JSVal.undef
    | e :: _ => Except.ok e
  | JSVal.str s => Except.ok (if s = "" then JSVal.undef else JSVal.str (s.take 1))
  | _ => Except.ok JSVal.undef

/-- The node state touched by `mbValue.onExecuted`: its title and its
(constructor-initialised) `properties.show_type`. -/
structure VNode where
  title : String
  show_type : Bool
deriving Repr

/-- An execution message; `value : none` models both an absent field and an
explicit `undefined` (either fails `message.value !== undefined`). -/
structure VMessage where
  value : Option JSVal

/-- `mbValue`'s `onExecuted` (value.js lines 77-111).  An `error` result is
an uncaught JS exception escaping the handler. -/
def onExecutedValue (n : VNode) (msg : Option VMessage) : Except Unit VNode :=
  match msg with
  | none => Except.ok n
  | some m =>
    match m.value with
    | none => Except.ok n
    | some JSVal.undef => Except.ok n
    | some v => do
      -- const value = message.value[0];  (throws on null)
      let value ← jsIndex0 v
      let showType := n.show_type
      let displayTitle :=
        match formatValue showType value with
        | Except.ok s => s
        | Except.error _ => "UNKNOWN: <error>"
      Except.ok { n with title := displayTitle }

/-!
### `mbDisplay.onExecuted` (display.js lines 42-54)
-/

/-- A widget of the `mbDisplay` node (name plus string value). -/
structure DWidget where
  name : String
  value : String
deriving DecidableEq, Repr

/-- The node state touched by `mbDisplay.onExecuted`.  `max_length` is
`this.properties.max_length`; `none` and `some 0` are the falsy cases of
`this.properties.max_length || DEFAULT_MAX_LENGTH`. -/
structure DNode where
  widgets : Option (List DWidget)
  max_length : Option Int
deriving DecidableEq, Repr

/-- `const DEFAULT_MAX_LENGTH = 500;` -/
def DEFAULT_MAX_LENGTH : Int := 500

/-- `this.properties.max_length || DEFAULT_MAX_LENGTH`. -/
def effectiveMaxLength (m : Option Int) : Int :=
  match m with
  | none => DEFAULT_MAX_LENGTH
  | some x => if x = 0 then DEFAULT_MAX_LENGTH else x

/-- Message for `mbDisplay`: `value` is either absent/falsy (`none`) or an
array of strings (arrays are always truthy, even when empty). -/
structure DMessage where
  value : Option (List String)

/-- Update the first widget named `value` (the object returned by
`this.widgets.find(w => w.name === "value")`). -/
def updateFirstValueWidget (f : DWidget → DWidget) : List DWidget → List DWidget
  | [] => []
  | w :: ws =>
    if w.name == "value" then f w :: ws
    else w :: updateFirstValueWidget f ws

/-- `mbDisplay`'s `onExecuted` (display.js lines 42-54).  An `error` result
is an uncaught JS exception (`newValue.length` on `undefined` when
`message.value` is an empty array). -/
def onExecutedDisplay (n : DNode) (msg : Option DMessage) : Except Unit DNode :=
  match msg with
  | none => Except.ok n
  | some m =>
    match n.widgets, m.value with
    | some ws, some arr =>
      -- const newValue = message.value[0];
      -- const valueWidget = this.widgets.find(w => w.name === "value");
      match ws.find? (fun w => w.name == "value") with
      | some _ => do
        let newValue ←
          match arr.get? 0 with
          | some s => Except.ok s
          | none => Except.error ()   -- undefined; `newValue.length` throws
        let maxLength := effectiveMaxLength n.max_length
        let f := fun (w : DWidget) =>
          { w with value :=
              if (newValue.length : Int) > maxLength then
                newValue.take maxLength.toNat ++ "..."
              else newValue }
        Except.ok { n with widgets := some (updateFirstValueWidget f ws) }
      | none => Except.ok n
    | _, _ => Except.ok n

/-!
### Derived notions used only in the statements of the theorems
-/

/-- The special (`select`/`code`) slots of an input list, in order. -/
def specialSlots (inputs : List Slot) : List Slot :=
  inputs.filter (fun s => s.isSpecial)

/-- Total version of `jsIndex0` for values that are not `null`/`undefined`
(on which `x[0]` cannot throw). -/
def jsAt0 : JSVal → JSVal
  | JSVal.arr [] => JSVal.undef
  | JSVal.arr (e :: _) => e
  | JSVal.str s => if s = "" then JSVal.undef else JSVal.str (s.take 1)
  | _ => JSVal.undef

/-- The title `mbValue.onExecuted` computes for a defined, non-null
`message.value`: the formatter's output, or the catch-block fallback when
the formatter throws. -/
def titleOf (showType : Bool) (v : JSVal) : String :=
  match formatValue showType (jsAt0 v) with
  | Except.ok s => s
  | Except.error _ => "UNKNOWN: <error>"

/-- `this.widgets && this.widgets.find(w => w.name === 'select')`. -/
def findSelectW (ws : Option (List Widget)) : Option Widget :=
  ws.bind (List.find? (fun w => w.name == "select"))

/-- The hypothesis of the amended C9: the message's `value` field, when
present, is not JS `null`. -/
def msgValueOk (msg : Option VMessage) : Prop :=
  ∀ m, msg = some m → m.value ≠ some JSVal.null

/-!
## Theorems

First, general facts about the building blocks of the synchronizer:
the indexed dynamic-entry scan, the last-connected scan, and the rename
scan.
-/

theorem dynEntriesFrom_cons_dyn (i : Nat) (s : Slot) (rest : List Slot)
    (h : s.isSpecial = false) :
    dynEntriesFrom i (s :: rest) = (i, s) :: dynEntriesFrom (i + 1) rest := by
  unfold dynEntriesFrom
  rw [if_pos (by simp [h])]
  cases rest <;> rfl

theorem dynEntriesFrom_cons_special (i : Nat) (s : Slot) (rest : List Slot)
    (h : s.isSpecial = true) :
    dynEntriesFrom i (s :: rest) = dynEntriesFrom (i + 1) rest := by
  unfold dynEntriesFrom
  rw [if_neg (by simp [h])]
  cases rest <;> rfl

theorem dynEntriesFrom_append (i : Nat) (xs ys : List Slot) :
    dynEntriesFrom i (xs ++ ys) = dynEntriesFrom i xs ++ dynEntriesFrom (i + xs.length) ys := by
  induction xs generalizing i with
  | nil => simp [dynEntriesFrom]
  | cons s rest ih =>
    have harith : i + 1 + rest.length = i + (rest.length + 1) := by omega
    by_cases h : s.isSpecial
    · simp [dynEntriesFrom, h, ih, harith]
    · simp [dynEntriesFrom, h, ih, harith]

theorem map_snd_dynEntriesFrom (i : Nat) (xs : List Slot) :
    (dynEntriesFrom i xs).map Prod.snd = dynamicSlots xs := by
  induction xs generalizing i with
  | nil => rfl
  | cons s rest ih =>
    by_cases h : s.isSpecial
    · simp [dynEntriesFrom, dynamicSlots, List.filter_cons, h, ih i]
      exact ih (i + 1)
    · simp [dynEntriesFrom, dynamicSlots, List.filter_cons, h]
      exact ih (i + 1)

theorem length_dynEntriesFrom (i : Nat) (xs : List Slot) :
    (dynEntriesFrom i xs).length = (dynamicSlots xs).length := by
  rw [← map_snd_dynEntriesFrom i xs, List.length_map]

theorem dynEntriesFrom_mem_get? (i : Nat) (xs : List Slot) (e : Nat × Slot)
    (he : e ∈ dynEntriesFrom i xs) :
    i ≤ e.1 ∧ xs.get? (e.1 - i) = some e.2 := by
  induction xs generalizing i with
  | nil => cases he
  | cons s rest ih =>
    unfold dynEntriesFrom at he
    by_cases h : s.isSpecial
    · rw [if_neg (by simp [h])] at he
      obtain ⟨h1, h2⟩ := ih (i + 1) he
      refine ⟨by omega, ?_⟩
      have harith : e.1 - i = (e.1 - (i + 1)) + 1 := by omega
      rw [harith]
      simpa using h2
    · rw [if_pos (by simp [h])] at he
      cases he with
      | head => exact ⟨le_refl i, by simp⟩
      | tail _ hmem =>
        obtain ⟨h1, h2⟩ := ih (i + 1) hmem
        refine ⟨by omega, ?_⟩
        have harith : e.1 - i = (e.1 - (i + 1)) + 1 := by omega
        rw [harith]
        simpa using h2

theorem dynEntriesFrom_mem_not_special (i : Nat) (xs : List Slot) (e : Nat × Slot)
    (he : e ∈ dynEntriesFrom i xs) : e.2.isSpecial = false := by
  induction xs generalizing i with
  | nil => cases he
  | cons s rest ih =>
    unfold dynEntriesFrom at he
    by_cases h : s.isSpecial
    · rw [if_neg (by simp [h])] at he
      exact ih (i + 1) he
    · rw [if_pos (by simp [h])] at he
      cases he with
      | head => simpa using h
      | tail _ hmem => exact ih (i + 1) hmem

theorem dynEntriesFrom_pairwise (i : Nat) (xs : List Slot) :
    (dynEntriesFrom i xs).Pairwise (fun a b => a.1 < b.1) := by
  induction xs generalizing i with
  | nil => exact List.Pairwise.nil
  | cons s rest ih =>
    unfold dynEntriesFrom
    by_cases h : s.isSpecial
    · rw [if_neg (by simp [h])]
      exact ih (i + 1)
    · rw [if_pos (by simp [h])]
      refine List.Pairwise.cons ?_ (ih (i + 1))
      intro e he
      have := (dynEntriesFrom_mem_get? (i + 1) rest e he).1
      simpa using by omega

theorem dynEntriesFrom_nil_of_nil (i j : Nat) (xs : List Slot)
    (h : dynEntriesFrom i xs = []) : dynEntriesFrom j xs = [] := by
  induction xs generalizing i j with
  | nil => rfl
  | cons s rest ih =>
    unfold dynEntriesFrom at h ⊢
    by_cases hs : s.isSpecial
    · rw [if_neg (by simp [hs])] at h ⊢
      exact ih (i + 1) (j + 1) h
    · rw [if_pos (by simp [hs])] at h
      cases h

theorem dynamicEntries_concat (inputs : List Slot) (A : List (Nat × Slot)) (e : Nat × Slot)
    (h : dynamicEntries inputs = A ++ [e]) :
    dynamicEntries (inputs.eraseIdx e.1) = A ∧
    specialSlots (inputs.eraseIdx e.1) = specialSlots inputs ∧
    inputs.get? e.1 = some e.2 ∧ e.2.isSpecial = false := by
  have hmem : e ∈ dynamicEntries inputs := by
    rw [h]; exact List.mem_append_right A (List.mem_singleton_self e)
  have hget : inputs.get? e.1 = some e.2 := by
    have := (dynEntriesFrom_mem_get? 0 inputs e hmem).2
    simpa using this
  have hnsp : e.2.isSpecial = false := dynEntriesFrom_mem_not_special 0 inputs e hmem
  have hlt : e.1 < inputs.length := (List.get?_eq_some.mp hget).1
  have hsplit : inputs = inputs.take e.1 ++ e.2 :: inputs.drop (e.1 + 1) := by
    conv_lhs => rw [← List.take_append_drop e.1 inputs]
    congr 1
    rw [List.drop_eq_get_cons hlt]
    congr 1
    have := List.get?_eq_get hlt
    rw [this] at hget
    exact Option.some.inj hget
  have hlen : (inputs.take e.1).length = e.1 := by
    rw [List.length_take]
    omega
  have hdecomp : dynamicEntries inputs =
      dynEntriesFrom 0 (inputs.take e.1) ++
        (e.1, e.2) :: dynEntriesFrom (e.1 + 1) (inputs.drop (e.1 + 1)) := by
    conv_lhs => rw [show dynamicEntries inputs = dynEntriesFrom 0 inputs from rfl, hsplit]
    rw [dynEntriesFrom_append, hlen]
    simp only [Nat.zero_add]
    rw [dynEntriesFrom_cons_dyn _ _ _ hnsp]
  have hpair : (A ++ [e]).Pairwise (fun a b => a.1 < b.1) := by
    rw [← h]
    exact dynEntriesFrom_pairwise 0 inputs
  have hA_lt : ∀ a ∈ A, a.1 < e.1 := by
    intro a ha
    have := (List.pairwise_append.mp hpair).2.2 a ha e (List.mem_singleton_self e)
    exact this
  have htail_nil : dynEntriesFrom (e.1 + 1) (inputs.drop (e.1 + 1)) = [] := by
    rw [List.eq_nil_iff_forall_not_mem]
    intro b hb
    have hb1 : e.1 + 1 ≤ b.1 := (dynEntriesFrom_mem_get? (e.1 + 1) _ b hb).1
    have hbmem : b ∈ A ++ [e] := by
      rw [← h, hdecomp]
      exact List.mem_append_right _ (List.mem_cons_of_mem _ hb)
    rcases List.mem_append.mp hbmem with hbA | hbe
    · have := hA_lt b hbA
      omega
    · have : b = e := List.mem_singleton.mp hbe
      subst this
      omega
  have hheadA : dynEntriesFrom 0 (inputs.take e.1) = A := by
    have h2 : dynEntriesFrom 0 (inputs.take e.1) ++ [(e.1, e.2)] = A ++ [e] := by
      rw [← h, hdecomp, htail_nil]
    have h3 : (e.1, e.2) = e := rfl
    rw [h3] at h2
    exact List.append_cancel_right h2
  refine ⟨?_, ?_, hget, hnsp⟩
  · rw [List.eraseIdx_eq_take_drop_succ]
    unfold dynamicEntries
    rw [dynEntriesFrom_append, hlen, hheadA]
    simp only [Nat.zero_add]
    rw [dynEntriesFrom_nil_of_nil (e.1 + 1) e.1 _ htail_nil, List.append_nil]
  · rw [List.eraseIdx_eq_take_drop_succ]
    conv_rhs => rw [hsplit]
    unfold specialSlots
    rw [List.filter_append, List.filter_append, List.filter_cons, if_neg (by simp [hnsp])]

theorem removeLoop_take (t : Nat) : ∀ (inputs : List Slot) (k : Nat),
    (dynamicEntries inputs).length ≤ k + t →
    (∀ e ∈ (dynamicEntries inputs).drop k, e.2.link = none) →
    dynamicEntries (removeLoop inputs (((dynamicEntries inputs).drop k).reverse.map Prod.fst)) =
      (dynamicEntries inputs).take k ∧
    specialSlots (removeLoop inputs (((dynamicEntries inputs).drop k).reverse.map Prod.fst)) =
      specialSlots inputs := by
  induction t with
  | zero =>
    intro inputs k hlen hfree
    have hdrop : (dynamicEntries inputs).drop k = [] := List.drop_eq_nil_of_le (by omega)
    rw [hdrop]
    simp only [List.reverse_nil, List.map_nil, removeLoop]
    exact ⟨(List.take_all_of_le (by omega)).symm, trivial⟩
  | succ t ih =>
    intro inputs k hlen hfree
    by_cases hk : (dynamicEntries inputs).length ≤ k
    · have hdrop : (dynamicEntries inputs).drop k = [] := List.drop_eq_nil_of_le hk
      rw [hdrop]
      simp only [List.reverse_nil, List.map_nil, removeLoop]
      exact ⟨(List.take_all_of_le hk).symm, trivial⟩
    · push_neg at hk
      have hne : dynamicEntries inputs ≠ [] := by
        intro hnil
        rw [hnil] at hk
        simp at hk
      obtain ⟨E', last, hEeq⟩ : ∃ E' last, dynamicEntries inputs = E' ++ [last] :=
        ⟨(dynamicEntries inputs).dropLast, (dynamicEntries inputs).getLast hne,
          (List.dropLast_append_getLast hne).symm⟩
      have hlenE : (dynamicEntries inputs).length = E'.length + 1 := by rw [hEeq]; simp
      have hkE : k ≤ E'.length := by omega
      have hdropk : (dynamicEntries inputs).drop k = E'.drop k ++ [last] := by
        rw [hEeq, List.drop_append_eq_append_drop, Nat.sub_eq_zero_of_le hkE, List.drop_zero]
      have htakek : (dynamicEntries inputs).take k = E'.take k := by
        rw [hEeq, List.take_append_eq_append_take, Nat.sub_eq_zero_of_le hkE, List.take_zero,
          List.append_nil]
      have hrev : ((dynamicEntries inputs).drop k).reverse.map Prod.fst =
          last.1 :: ((E'.drop k).reverse.map Prod.fst) := by
        rw [hdropk]
        simp
      obtain ⟨hE2, hsp2, hget2, _⟩ := dynamicEntries_concat inputs E' last hEeq
      have hlastfree : last.2.link = none :=
        hfree last (by rw [hdropk]; exact List.mem_append_right _ (List.mem_singleton_self _))
      have hstep : removeLoop inputs (last.1 :: ((E'.drop k).reverse.map Prod.fst)) =
          removeLoop (inputs.eraseIdx last.1) ((E'.drop k).reverse.map Prod.fst) := by
        conv_lhs => unfold removeLoop
        simp only [hget2]
        rw [if_pos (by rw [hlastfree]; rfl)]
      have hdropE' : E'.drop k = (dynamicEntries (inputs.eraseIdx last.1)).drop k := by
        rw [hE2]
      have hlen' : (dynamicEntries (inputs.eraseIdx last.1)).length ≤ k + t := by
        rw [hE2]
        omega
      have hfree' : ∀ e ∈ (dynamicEntries (inputs.eraseIdx last.1)).drop k, e.2.link = none := by
        rw [hE2]
        intro e he
        exact hfree e (by rw [hdropk]; exact List.mem_append_left _ he)
      obtain ⟨ih1, ih2⟩ := ih (inputs.eraseIdx last.1) k hlen' hfree'
      constructor
      · rw [hrev, hstep, hdropE', ih1, hE2, htakek]
      · rw [hrev, hstep, hdropE', ih2, hsp2]

theorem lcLoop_cons (acc : Int) (i : Nat) (s : Slot) (rest : List Slot) :
    lcLoop acc i (s :: rest) =
      lcLoop (if s.link.isSome then (i : Int) else acc) (i + 1) rest := by
  cases rest <;> rfl

theorem lcLoop_concat (acc : Int) (i : Nat) (xs : List Slot) (t : Slot) :
    lcLoop acc i (xs ++ [t]) =
      if t.link.isSome then ((i + xs.length : Nat) : Int) else lcLoop acc i xs := by
  induction xs generalizing acc i with
  | nil => cases ht : t.link.isSome <;> simp [lcLoop, ht]
  | cons s rest ih =>
    cases ht : t.link.isSome with
    | true =>
      rw [List.cons_append, lcLoop_cons, ih, ht]
      simp only [if_true]
      rw [List.length_cons]
      omega
    | false =>
      rw [List.cons_append, lcLoop_cons, ih, ht]
      simp only [Bool.false_eq_true, if_false]
      rw [lcLoop_cons]

theorem lastConnectedOf_concat (xs : List Slot) (t : Slot) :
    lastConnectedOf (xs ++ [t]) =
      if t.link.isSome then (xs.length : Int) else lastConnectedOf xs := by
  unfold lastConnectedOf
  rw [lcLoop_concat]
  simp

theorem lastConnectedOf_lt_length (xs : List Slot) : lastConnectedOf xs < (xs.length : Int) := by
  induction xs using List.reverseRecOn with
  | nil => simp [lastConnectedOf, lcLoop]
  | append_singleton xs t ih =>
    rw [lastConnectedOf_concat]
    split
    · rw [List.length_append, List.length_singleton]
      push_cast
      omega
    · rw [List.length_append, List.length_singleton]
      push_cast
      omega

theorem lastConnectedOf_concat_ge (xs : List Slot) (t : Slot) :
    lastConnectedOf xs ≤ lastConnectedOf (xs ++ [t]) := by
  rw [lastConnectedOf_concat]
  split
  · exact le_of_lt (lastConnectedOf_lt_length xs)
  · exact le_refl _

theorem le_lastConnectedOf (xs : List Slot) (j : Nat) (s : Slot)
    (h : xs.get? j = some s) (hc : s.link.isSome = true) :
    (j : Int) ≤ lastConnectedOf xs := by
  induction xs using List.reverseRecOn with
  | nil => exact Option.noConfusion h
  | append_singleton xs t ih =>
    by_cases hj : j < xs.length
    · have hx : xs.get? j = some s := (List.get?_append hj).symm.trans h
      calc (j : Int) ≤ lastConnectedOf xs := ih hx
        _ ≤ lastConnectedOf (xs ++ [t]) := lastConnectedOf_concat_ge xs t
    · push_neg at hj
      rw [List.get?_append_right hj] at h
      cases hk : j - xs.length with
      | zero =>
        rw [hk] at h
        have hts : t = s := by simpa using h
        subst hts
        simp only [lastConnectedOf_concat, hc, if_true]
        omega
      | succ m =>
        rw [hk] at h
        simp at h

theorem lastConnectedOf_all_none (xs : List Slot) (h : ∀ s ∈ xs, s.link = none) :
    lastConnectedOf xs = -1 := by
  induction xs using List.reverseRecOn with
  | nil => rfl
  | append_singleton xs t ih =>
    rw [lastConnectedOf_concat]
    have hht : t.link = none := h t (by simp)
    simp only [hht, Option.isSome_none, Bool.false_eq_true, if_false]
    exact ih (fun s hs => h s (List.mem_append_left _ hs))

theorem lastConnectedOf_none_of_neg (xs : List Slot) (h : lastConnectedOf xs = -1) :
    ∀ s ∈ xs, s.link = none := by
  induction xs using List.reverseRecOn with
  | nil => intro s hs; cases hs
  | append_singleton xs t ih =>
    rw [lastConnectedOf_concat] at h
    cases ht : t.link.isSome with
    | true =>
      rw [ht] at h
      simp only [if_true] at h
      exfalso
      omega
    | false =>
      rw [ht] at h
      simp only [Bool.false_eq_true, if_false] at h
      intro s hs
      rcases List.mem_append.mp hs with hsx | hst
      · exact ih h s hsx
      · have : s = t := List.mem_singleton.mp hst
        subst this
        cases hl : s.link with
        | none => rfl
        | some v => rw [hl] at ht; simp at ht

theorem lastConnectedOf_append_free (xs ys : List Slot) (h : ∀ s ∈ ys, s.link = none) :
    lastConnectedOf (xs ++ ys) = lastConnectedOf xs := by
  induction ys using List.reverseRecOn with
  | nil => simp
  | append_singleton ys t ih =>
    rw [← List.append_assoc, lastConnectedOf_concat]
    have hht : t.link = none := h t (by simp)
    simp only [hht, Option.isSome_none, Bool.false_eq_true, if_false]
    exact ih (fun s hs => h s (List.mem_append_left _ hs))

theorem lastConnectedOf_take (xs : List Slot) (k : Nat) (hk : lastConnectedOf xs < (k : Int)) :
    lastConnectedOf (xs.take k) = lastConnectedOf xs := by
  conv_rhs => rw [← List.take_append_drop k xs]
  rw [lastConnectedOf_append_free]
  intro s hs
  obtain ⟨j, hj⟩ := List.mem_iff_get?.mp hs
  have hxj : xs.get? (k + j) = some s := by rw [← List.get?_drop]; exact hj
  cases hl : s.link with
  | none => rfl
  | some v =>
    exfalso
    have := le_lastConnectedOf xs (k + j) s hxj (by simp [hl])
    omega

theorem lcLoop_congr (acc : Int) (i : Nat) :
    ∀ (xs ys : List Slot), xs.map Slot.link = ys.map Slot.link →
      lcLoop acc i xs = lcLoop acc i ys := by
  intro xs
  induction xs generalizing acc i with
  | nil =>
    intro ys h
    have h2 : ys.map Slot.link = [] := by simpa using h.symm
    rw [List.map_eq_nil.mp h2]
  | cons s rest ih =>
    intro ys h
    cases ys with
    | nil => simp at h
    | cons y yrest =>
      simp only [List.map_cons, List.cons.injEq] at h
      simp only [lcLoop, h.1]
      exact ih _ _ _ (h.2)

theorem lastConnectedOf_congr (xs ys : List Slot) (h : xs.map Slot.link = ys.map Slot.link) :
    lastConnectedOf xs = lastConnectedOf ys :=
  lcLoop_congr (-1) 0 xs ys h

theorem neg_one_le_lastConnectedOf (xs : List Slot) : (-1 : Int) ≤ lastConnectedOf xs := by
  induction xs using List.reverseRecOn with
  | nil => exact le_refl _
  | append_singleton xs t ih =>
    rw [lastConnectedOf_concat]
    split
    · omega
    · exact ih

theorem append_ne_of_head (nm x t : String) (c c' : Char) (cs cs' : List Char)
    (h1 : nm.data = c :: cs) (h2 : t.data = c' :: cs') (hne : c ≠ c') : nm ++ x ≠ t := by
  intro hh
  have hd := congrArg String.data hh
  rw [String.data_append, h1, h2, List.cons_append] at hd
  injection hd with hhd _
  exact hne hhd

theorem isSpecialName_kind_append (nm : String) (hk : isKindName nm) (x : String) :
    isSpecialName (nm ++ x) = false := by
  have hsel : nm ++ x ≠ "select" := by
    rcases hk with h | h | h | h <;> subst h
    · exact append_ne_of_head _ x _ 'i' 's' _ _ rfl rfl (by decide)
    · exact append_ne_of_head _ x _ 'a' 's' _ _ rfl rfl (by decide)
    · exact append_ne_of_head _ x _ 'i' 's' _ _ rfl rfl (by decide)
    · exact append_ne_of_head _ x _ 'i' 's' _ _ rfl rfl (by decide)
  have hcode : nm ++ x ≠ "code" := by
    rcases hk with h | h | h | h <;> subst h
    · exact append_ne_of_head _ x _ 'i' 'c' _ _ rfl rfl (by decide)
    · exact append_ne_of_head _ x _ 'a' 'c' _ _ rfl rfl (by decide)
    · exact append_ne_of_head _ x _ 'i' 'c' _ _ rfl rfl (by decide)
    · exact append_ne_of_head _ x _ 'i' 'c' _ _ rfl rfl (by decide)
  unfold isSpecialName
  rw [Bool.or_eq_false_iff]
  exact ⟨beq_eq_false_iff_ne.mpr hsel, beq_eq_false_iff_ne.mpr hcode⟩

theorem renameLoop_cons_dyn (nm : String) (k : Nat) (s : Slot) (rest : List Slot)
    (h : s.isSpecial = false) :
    renameLoop nm k (s :: rest) =
      { s with name := nm ++ toString k } :: renameLoop nm (k + 1) rest := by
  unfold renameLoop
  rw [if_pos (by simp [h])]
  cases rest <;> rfl

theorem renameLoop_cons_special (nm : String) (k : Nat) (s : Slot) (rest : List Slot)
    (h : s.isSpecial = true) :
    renameLoop nm k (s :: rest) = s :: renameLoop nm k rest := by
  unfold renameLoop
  rw [if_neg (by simp [h])]
  cases rest <;> rfl

theorem renamed_not_special (nm : String) (hk : isKindName nm) (s : Slot) (k : Nat) :
    Slot.isSpecial { s with name := nm ++ toString k } = false := by
  unfold Slot.isSpecial
  exact isSpecialName_kind_append nm hk _

theorem specialSlots_cons (s : Slot) (xs : List Slot) :
    specialSlots (s :: xs) = if s.isSpecial then s :: specialSlots xs else specialSlots xs := by
  by_cases h : s.isSpecial <;> simp [specialSlots, List.filter_cons, h]

theorem dynamicSlots_cons (s : Slot) (xs : List Slot) :
    dynamicSlots (s :: xs) = if s.isSpecial then dynamicSlots xs else s :: dynamicSlots xs := by
  by_cases h : s.isSpecial <;> simp [dynamicSlots, List.filter_cons, h]

theorem renameLoop_specialSlots (nm : String) (hk : isKindName nm) :
    ∀ (k : Nat) (xs : List Slot), specialSlots (renameLoop nm k xs) = specialSlots xs := by
  intro k xs
  induction xs generalizing k with
  | nil => rfl
  | cons s rest ih =>
    by_cases h : s.isSpecial
    · rw [renameLoop_cons_special nm k s rest h, specialSlots_cons, specialSlots_cons,
        if_pos h, if_pos h, ih k]
    · have hf : s.isSpecial = false := Bool.eq_false_iff.mpr h
      rw [renameLoop_cons_dyn nm k s rest hf, specialSlots_cons, specialSlots_cons,
        if_neg (by simp [renamed_not_special nm hk s k]), if_neg h, ih (k + 1)]

theorem renameLoop_dyn_links (nm : String) (hk : isKindName nm) :
    ∀ (k : Nat) (xs : List Slot),
      (dynamicSlots (renameLoop nm k xs)).map Slot.link = (dynamicSlots xs).map Slot.link := by
  intro k xs
  induction xs generalizing k with
  | nil => rfl
  | cons s rest ih =>
    by_cases h : s.isSpecial
    · rw [renameLoop_cons_special nm k s rest h, dynamicSlots_cons, dynamicSlots_cons,
        if_pos h, if_pos h, ih k]
    · have hf : s.isSpecial = false := Bool.eq_false_iff.mpr h
      rw [renameLoop_cons_dyn nm k s rest hf, dynamicSlots_cons, dynamicSlots_cons,
        if_neg (by simp [renamed_not_special nm hk s k]), if_neg h]
      simp only [List.map_cons, ih (k + 1)]

theorem renameLoop_dyn_names (nm : String) (hk : isKindName nm) :
    ∀ (k : Nat) (xs : List Slot) (j : Nat) (s : Slot),
      (dynamicSlots (renameLoop nm k xs)).get? j = some s → s.name = nm ++ toString (k + j) := by
  intro k xs
  induction xs generalizing k with
  | nil => intro j s h; exact Option.noConfusion h
  | cons s0 rest ih =>
    intro j s h
    by_cases h0 : s0.isSpecial
    · rw [renameLoop_cons_special nm k s0 rest h0, dynamicSlots_cons, if_pos h0] at h
      exact ih k j s h
    · have hf : s0.isSpecial = false := Bool.eq_false_iff.mpr h0
      rw [renameLoop_cons_dyn nm k s0 rest hf, dynamicSlots_cons,
        if_neg (by simp [renamed_not_special nm hk s0 k])] at h
      cases j with
      | zero =>
        have : { s0 with name := nm ++ toString k } = s := by simpa using h
        rw [← this, Nat.add_zero]
      | succ j' =>
        have h' : (dynamicSlots (renameLoop nm (k + 1) rest)).get? j' = some s := by simpa using h
        have := ih (k + 1) j' s h'
        rw [this]
        have harith : k + 1 + j' = k + (j' + 1) := by omega
        rw [harith]

theorem dynamicSlots_eq_map_snd (xs : List Slot) :
    dynamicSlots xs = (dynamicEntries xs).map Prod.snd :=
  (map_snd_dynEntriesFrom 0 xs).symm

theorem normalizeStep_outputs (nm : String) (n : Node) :
    (normalizeStep nm n).outputs = n.outputs := by
  simp only [normalizeStep]
  split_ifs <;> rfl

theorem normalizeStep_widgets (nm : String) (n : Node) :
    (normalizeStep nm n).widgets = n.widgets := by
  simp only [normalizeStep]
  split_ifs <;> rfl

theorem normalizeStep_spec (nm : String) (hk : isKindName nm) (n : Node) :
    ((dynamicSlots (normalizeStep nm n).inputs).length : Int) =
        max 1 (lastConnectedOf (dynamicSlots n.inputs) + 2) ∧
    (∀ i, i < (dynamicSlots n.inputs).length →
        i < (dynamicSlots (normalizeStep nm n).inputs).length →
        (dynamicSlots (normalizeStep nm n).inputs).get? i = (dynamicSlots n.inputs).get? i) ∧
    (∀ s ∈ dynamicSlots n.inputs, s.link.isSome = true →
        s ∈ dynamicSlots (normalizeStep nm n).inputs) ∧
    lastConnectedOf (dynamicSlots (normalizeStep nm n).inputs) =
        lastConnectedOf (dynamicSlots n.inputs) ∧
    specialSlots (normalizeStep nm n).inputs = specialSlots n.inputs := by
  have hmap : (dynamicEntries n.inputs).map Prod.snd = dynamicSlots n.inputs :=
    map_snd_dynEntriesFrom 0 n.inputs
  have hlenE : (dynamicEntries n.inputs).length = (dynamicSlots n.inputs).length :=
    length_dynEntriesFrom 0 n.inputs
  have hge : (-1 : Int) ≤ lastConnectedOf (dynamicSlots n.inputs) :=
    neg_one_le_lastConnectedOf _
  have hmaxeq : max 1 (lastConnectedOf (dynamicSlots n.inputs) + 2) =
      lastConnectedOf (dynamicSlots n.inputs) + 2 := max_eq_right (by omega)
  have hKint : (((lastConnectedOf (dynamicSlots n.inputs) + 2).toNat) : Int) =
      lastConnectedOf (dynamicSlots n.inputs) + 2 := Int.toNat_of_nonneg (by omega)
  have hfree_tail : ∀ (k : Nat), lastConnectedOf (dynamicSlots n.inputs) < (k : Int) →
      ∀ e ∈ (dynamicEntries n.inputs).drop k, e.2.link = none := by
    intro k hkp e he
    obtain ⟨j, hj⟩ := List.mem_iff_get?.mp he
    have hxj : (dynamicEntries n.inputs).get? (k + j) = some e := by
      rw [← List.get?_drop]
      exact hj
    have hdj : (dynamicSlots n.inputs).get? (k + j) = some e.2 := by
      rw [← hmap, List.get?_map, hxj]
      rfl
    cases hl : e.2.link with
    | none => rfl
    | some v =>
      exfalso
      have := le_lastConnectedOf _ (k + j) e.2 hdj (by simp [hl])
      omega
  by_cases hgt : ((dynamicEntries n.inputs).length : Int) >
      max 1 (lastConnectedOf (dynamicSlots n.inputs) + 2)
  · -- removal branch
    have heq : (normalizeStep nm n).inputs = removeLoop n.inputs
        ((((dynamicEntries n.inputs).drop
          (max 1 (lastConnectedOf (dynamicSlots n.inputs) + 2)).toNat).reverse).map Prod.fst) := by
      simp only [normalizeStep, hmap]
      rw [if_pos hgt]
    rw [hmaxeq] at heq hgt
    obtain ⟨hrm1, hrm2⟩ := removeLoop_take ((dynamicEntries n.inputs).length) n.inputs
      ((lastConnectedOf (dynamicSlots n.inputs) + 2).toNat) (by omega)
      (hfree_tail _ (by omega))
    have hplt : lastConnectedOf (dynamicSlots n.inputs) <
        (((lastConnectedOf (dynamicSlots n.inputs) + 2).toNat : Nat) : Int) := by omega
    generalize hGK : (lastConnectedOf (dynamicSlots n.inputs) + 2).toNat = K at heq hrm1 hrm2 hKint hplt
    have hd2 : dynamicSlots (normalizeStep nm n).inputs = (dynamicSlots n.inputs).take K := by
      rw [heq, dynamicSlots_eq_map_snd, hrm1, List.map_take, hmap]
    have hKlt : K < (dynamicSlots n.inputs).length := by omega
    refine ⟨?_, ?_, ?_, ?_, ?_⟩
    · rw [hd2, List.length_take, Nat.min_eq_left (le_of_lt hKlt), hmaxeq]
      omega
    · intro i hi1 hi2
      rw [hd2] at hi2 ⊢
      rw [List.length_take] at hi2
      have hiK : i < K := (lt_min_iff.mp hi2).1
      rw [List.get?_take hiK]
    · intro s hs hlink
      obtain ⟨j, hj⟩ := List.mem_iff_get?.mp hs
      have hjp := le_lastConnectedOf _ j s hj hlink
      have hjK : j < K := by omega
      rw [hd2]
      exact List.get?_mem (by rw [List.get?_take hjK]; exact hj)
    · rw [hd2]
      exact lastConnectedOf_take _ _ hplt
    · rw [heq]
      exact hrm2
  · by_cases hlt : ((dynamicEntries n.inputs).length : Int) <
        max 1 (lastConnectedOf (dynamicSlots n.inputs) + 2)
    · -- addition branch
      have heq : (normalizeStep nm n).inputs = n.inputs ++
          (addNames nm (dynamicEntries n.inputs).length
            ((max 1 (lastConnectedOf (dynamicSlots n.inputs) + 2)).toNat -
              (dynamicEntries n.inputs).length)).map
            (fun nm' => newSlot nm' (slotTyOf n.outputs)) := by
        simp only [normalizeStep, hmap]
        rw [if_neg hgt, if_pos hlt]
      set L := (addNames nm (dynamicEntries n.inputs).length
          ((max 1 (lastConnectedOf (dynamicSlots n.inputs) + 2)).toNat -
            (dynamicEntries n.inputs).length)).map
          (fun nm' => newSlot nm' (slotTyOf n.outputs)) with hL
      have hnew : ∀ s ∈ L, s.link = none ∧ s.isSpecial = false := by
        rw [hL]
        intro s hs
        obtain ⟨nm', hnm', rfl⟩ := List.mem_map.mp hs
        refine ⟨rfl, ?_⟩
        obtain ⟨i, _, rfl⟩ := List.mem_map.mp hnm'
        exact isSpecialName_kind_append nm hk _
      have hd2 : dynamicSlots (normalizeStep nm n).inputs = dynamicSlots n.inputs ++ L := by
        rw [heq]
        unfold dynamicSlots
        rw [List.filter_append]
        congr 1
        exact List.filter_eq_self.mpr (fun s hs => by simp [(hnew s hs).2])
      have hlnew : L.length = (max 1 (lastConnectedOf (dynamicSlots n.inputs) + 2)).toNat -
          (dynamicEntries n.inputs).length := by
        rw [hL, List.length_map]
        unfold addNames
        rw [List.length_map, List.length_range]
      rw [hmaxeq] at hlt hlnew
      refine ⟨?_, ?_, ?_, ?_, ?_⟩
      · rw [hd2, List.length_append, hlnew, hmaxeq]
        omega
      · intro i hi1 hi2
        rw [hd2]
        exact List.get?_append hi1
      · intro s hs _
        rw [hd2]
        exact List.mem_append_left _ hs
      · rw [hd2]
        exact lastConnectedOf_append_free _ _ (fun s hs => (hnew s hs).1)
      · rw [heq]
        unfold specialSlots
        rw [List.filter_append]
        have hfl : List.filter (fun s => s.isSpecial) L = [] :=
          List.filter_eq_nil.mpr (fun s hs => by simp [(hnew s hs).2])
        rw [hfl, List.append_nil]
    · -- already synchronized
      have heq : normalizeStep nm n = n := by
        simp only [normalizeStep, hmap]
        rw [if_neg hgt, if_neg hlt]
      rw [heq]
      refine ⟨?_, fun i _ _ => rfl, fun s hs _ => hs, rfl, rfl⟩
      rw [hmaxeq]
      omega

theorem specialSlots_eraseIdx (inputs : List Slot) (g : Nat) (s : Slot)
    (hget : inputs.get? g = some s) (hsp : s.isSpecial = false) :
    specialSlots (inputs.eraseIdx g) = specialSlots inputs := by
  have hlt : g < inputs.length := (List.get?_eq_some.mp hget).1
  have hsplit : inputs = inputs.take g ++ s :: inputs.drop (g + 1) := by
    conv_lhs => rw [← List.take_append_drop g inputs]
    congr 1
    rw [List.drop_eq_get_cons hlt]
    congr 1
    have h2 := List.get?_eq_get hlt
    rw [h2] at hget
    exact Option.some.inj hget
  rw [List.eraseIdx_eq_take_drop_succ]
  conv_rhs => rw [hsplit]
  unfold specialSlots
  rw [List.filter_append, List.filter_append, List.filter_cons, if_neg (by simp [hsp])]

theorem trimStep_cases (n : Node) (index : Nat) (connected : Bool) (trace : String) :
    trimStep n index connected trace = n ∨
    ∃ s, n.inputs.get? index = some s ∧ s.isSpecial = false ∧
      trimStep n index connected trace = { n with inputs := n.inputs.eraseIdx index } := by
  unfold trimStep
  split
  · split
    · rename_i inputAtIndex heq
      split
      · rename_i hcond
        split
        · right
          refine ⟨inputAtIndex, heq, ?_, rfl⟩
          simp only [Bool.and_eq_true] at hcond
          have hd : (inputAtIndex.name != "select") = true := hcond.1.2
          have he : (inputAtIndex.name != "code") = true := hcond.2
          simp only [bne_iff_ne, ne_eq] at hd he
          unfold Slot.isSpecial isSpecialName
          rw [Bool.or_eq_false_iff]
          exact ⟨beq_eq_false_iff_ne.mpr hd, beq_eq_false_iff_ne.mpr he⟩
        · exact Or.inl rfl
      · exact Or.inl rfl
    · exact Or.inl rfl
  · exact Or.inl rfl

theorem trimStep_specialSlots (n : Node) (index : Nat) (connected : Bool) (trace : String) :
    specialSlots (trimStep n index connected trace).inputs = specialSlots n.inputs := by
  rcases trimStep_cases n index connected trace with h | ⟨s, hget, hsp, h⟩
  · rw [h]
  · rw [h]
    exact specialSlots_eraseIdx n.inputs index s hget hsp

theorem trimStep_outputs (n : Node) (index : Nat) (connected : Bool) (trace : String) :
    (trimStep n index connected trace).outputs = n.outputs := by
  rcases trimStep_cases n index connected trace with h | ⟨s, _, _, h⟩ <;> rw [h]

theorem trimStep_widgets (n : Node) (index : Nat) (connected : Bool) (trace : String) :
    (trimStep n index connected trace).widgets = n.widgets := by
  rcases trimStep_cases n index connected trace with h | ⟨s, _, _, h⟩ <;> rw [h]

theorem selectStep_inputs (b : Bool) (n : Node) : (selectStep b n).inputs = n.inputs := by
  unfold selectStep
  split
  · split <;> rfl
  · rfl

theorem selectStep_find (n : Node) (ws : List Widget) (hw : n.widgets = some ws) :
    (selectStep true n).widgets =
      some (updateFirstSelect (updateSelect (lastConnectedOf (dynamicSlots n.inputs))) ws) := by
  unfold selectStep
  rw [if_pos rfl, hw]

theorem updateSelect_name (L : Int) (w : Widget) : (updateSelect L w).name = w.name := by
  unfold updateSelect
  split <;> rfl

theorem findSelect_updateFirstSelect (f : Widget → Widget) (hpres : ∀ w, (f w).name = w.name)
    (ws : List Widget) :
    (updateFirstSelect f ws).find? (fun w => w.name == "select") =
      (ws.find? (fun w => w.name == "select")).map f := by
  induction ws with
  | nil => rfl
  | cons w ws ih =>
    unfold updateFirstSelect
    by_cases h : (w.name == "select") = true
    · rw [if_pos h]
      simp [List.find?, hpres w, h]
    · have hf : (w.name == "select") = false := Bool.eq_false_iff.mpr h
      rw [if_neg h]
      simp [List.find?, hf, ih]

theorem handler_spec (nm : String) (hk : isKindName nm) (isSel : Bool) (n : Node)
    (index : Nat) (connected : Bool) (trace : String) :
    ((dynamicSlots (onConnectionsChange nm isSel n 1 index connected (some ()) trace).inputs).length : Int) =
        max 1 (lastConnectedOf (dynamicSlots (trimStep n index connected trace).inputs) + 2) ∧
    lastConnectedOf (dynamicSlots (onConnectionsChange nm isSel n 1 index connected (some ()) trace).inputs) =
        lastConnectedOf (dynamicSlots (trimStep n index connected trace).inputs) ∧
    specialSlots (onConnectionsChange nm isSel n 1 index connected (some ()) trace).inputs =
        specialSlots n.inputs ∧
    (onConnectionsChange nm isSel n 1 index connected (some ()) trace).inputs =
      renameLoop nm 1 (normalizeStep nm (trimStep n index connected trace)).inputs := by
  have hres : onConnectionsChange nm isSel n 1 index connected (some ()) trace =
      selectStep isSel (renameStep nm (normalizeStep nm (trimStep n index connected trace))) := by
    unfold onConnectionsChange
    rw [if_neg (by simp)]
  have hinputs : (onConnectionsChange nm isSel n 1 index connected (some ()) trace).inputs =
      renameLoop nm 1 (normalizeStep nm (trimStep n index connected trace)).inputs := by
    rw [hres, selectStep_inputs]
    rfl
  obtain ⟨hN1, _, _, hN4, hN5⟩ := normalizeStep_spec nm hk (trimStep n index connected trace)
  have hlinks : (dynamicSlots (onConnectionsChange nm isSel n 1 index connected (some ()) trace).inputs).map Slot.link =
      (dynamicSlots (normalizeStep nm (trimStep n index connected trace)).inputs).map Slot.link := by
    rw [hinputs]
    exact renameLoop_dyn_links nm hk 1 _
  refine ⟨?_, ?_, ?_, hinputs⟩
  · have hlen : (dynamicSlots (onConnectionsChange nm isSel n 1 index connected (some ()) trace).inputs).length =
        (dynamicSlots (normalizeStep nm (trimStep n index connected trace)).inputs).length := by
      have := congrArg List.length hlinks
      simpa using this
    rw [hlen]
    exact hN1
  · calc lastConnectedOf (dynamicSlots (onConnectionsChange nm isSel n 1 index connected (some ()) trace).inputs)
        = lastConnectedOf (dynamicSlots (normalizeStep nm (trimStep n index connected trace)).inputs) :=
          lastConnectedOf_congr _ _ hlinks
      _ = lastConnectedOf (dynamicSlots (trimStep n index connected trace).inputs) := hN4
  · calc specialSlots (onConnectionsChange nm isSel n 1 index connected (some ()) trace).inputs
        = specialSlots (normalizeStep nm (trimStep n index connected trace)).inputs := by
          rw [hinputs]
          exact renameLoop_specialSlots nm hk 1 _
      _ = specialSlots (trimStep n index connected trace).inputs := hN5
      _ = specialSlots n.inputs := trimStep_specialSlots n index connected trace

theorem jsStartsWith_append_self (p t : List Char) : jsStartsWith (p ++ t) p = true := by
  induction p with
  | nil => cases t <;> rfl
  | cons c cs ih => simp [jsStartsWith, ih]

theorem addHiddenMarker_of_hidden (c : List Char) (h : isCodeHidden c = true) :
    addHiddenMarker c = c := by
  unfold addHiddenMarker
  rw [h]
  simp

theorem isCodeHidden_add (s : List Char) : isCodeHidden (addHiddenMarker s) = true := by
  cases h : isCodeHidden s with
  | true => rw [addHiddenMarker_of_hidden s h]; exact h
  | false =>
    unfold addHiddenMarker
    rw [h]
    simp only [Bool.not_false, if_true]
    by_cases hs : s = []
    · simp only [hs, ne_eq, not_true_eq_false, if_false]
      have := jsStartsWith_append_self HIDDEN_MARKER []
      simpa [isCodeHidden] using this
    · simp only [ne_eq, hs, not_false_eq_true, if_true]
      have := jsStartsWith_append_self HIDDEN_MARKER ('\n' :: s)
      simpa [isCodeHidden] using this

/-- C8: for every code string that does not start with the hidden marker,
`removeHiddenMarker (addHiddenMarker s) = s`, and `addHiddenMarker` is
idempotent on every string — hiding then showing a code widget restores
its exact text. -/
theorem C8_hidden_marker_roundtrip (s : List Char) :
    (isCodeHidden s = false → removeHiddenMarker (addHiddenMarker s) = s) ∧
    addHiddenMarker (addHiddenMarker s) = addHiddenMarker s := by
  constructor
  · intro h
    by_cases hs : s = []
    · subst hs; decide
    · have hadd : addHiddenMarker s = HIDDEN_MARKER ++ '\n' :: s := by
        unfold addHiddenMarker
        rw [h]
        simp [hs]
      rw [hadd]
      unfold removeHiddenMarker
      have hh : isCodeHidden (HIDDEN_MARKER ++ '\n' :: s) = true := by
        have := jsStartsWith_append_self HIDDEN_MARKER ('\n' :: s)
        simpa [isCodeHidden] using this
      rw [hh]
      simp only [if_true]
      have hsplit : HIDDEN_MARKER ++ '\n' :: s = (HIDDEN_MARKER ++ ['\n']) ++ s := by
        simp
      rw [hsplit]
      have hl : (HIDDEN_MARKER ++ ['\n']).length = HIDDEN_MARKER.length + 1 := by
        simp
      rw [← hl, List.drop_left]
  · exact addHiddenMarker_of_hidden _ (isCodeHidden_add s)

/-- Witness for C8 at the concrete code string `print(1)`. -/
theorem C8_hidden_marker_roundtrip_witness :
    isCodeHidden "print(1)".data = false ∧
    removeHiddenMarker (addHiddenMarker "print(1)".data) = "print(1)".data ∧
    addHiddenMarker (addHiddenMarker "print(1)".data) = addHiddenMarker "print(1)".data :=
  ⟨by decide, (C8_hidden_marker_roundtrip "print(1)".data).1 (by decide),
    (C8_hidden_marker_roundtrip "print(1)".data).2⟩

theorem jsIndex0_eq_ok (v : JSVal) (h1 : v ≠ JSVal.null) (h2 : v ≠ JSVal.undef) :
    jsIndex0 v = Except.ok (jsAt0 v) := by
  cases v with
  | arr elems => cases elems <;> rfl
  | null => exact absurd rfl h1
  | undef => exact absurd rfl h2
  | _ => rfl

/-- C9 (amended): `mbValue.onExecuted` never throws for any message whose
`value` field, when present, is not JS `null`; when the value is defined it
sets the title to the formatter's output (falling back to
`UNKNOWN: <error>` when the formatting logic throws), and when the message
is absent or has no `value` field the title is unchanged. -/
theorem C9_value_onexecuted_safe (n : VNode) (msg : Option VMessage) (h : msgValueOk msg) :
    (∃ n', onExecutedValue n msg = Except.ok n') ∧
    (msg = none → onExecutedValue n msg = Except.ok n) ∧
    (∀ m, msg = some m → m.value = none → onExecutedValue n msg = Except.ok n) ∧
    (∀ m v, msg = some m → m.value = some v → v ≠ JSVal.undef →
      onExecutedValue n msg = Except.ok { n with title := titleOf n.show_type v }) := by
  cases msg with
  | none =>
    exact ⟨⟨n, rfl⟩, fun _ => rfl, fun m hm => Option.noConfusion hm,
      fun m v hm => Option.noConfusion hm⟩
  | some m =>
    obtain ⟨mv⟩ := m
    have hnull : mv ≠ some JSVal.null := h ⟨mv⟩ rfl
    have hmain : ∀ v, mv = some v → v ≠ JSVal.undef →
        onExecutedValue n (some ⟨mv⟩) = Except.ok { n with title := titleOf n.show_type v } := by
      intro v hv hundef
      subst hv
      have hvnull : v ≠ JSVal.null := fun hh => hnull (by rw [hh])
      cases v with
      | arr elems => cases elems <;> rfl
      | null => exact absurd rfl hvnull
      | undef => exact absurd rfl hundef
      | _ => rfl
    refine ⟨?_, fun hnone => Option.noConfusion hnone, ?_, ?_⟩
    · cases mv with
      | none => exact ⟨n, rfl⟩
      | some v =>
        cases v <;>
          first
          | exact ⟨n, rfl⟩
          | exact absurd rfl hnull
          | exact ⟨_, hmain _ rfl (fun hh => JSVal.noConfusion hh)⟩
    · intro m' hm' hv
      cases hm'
      have hv' : mv = none := hv
      subst hv'
      rfl
    · intro m' v hm' hv hundef
      cases hm'
      exact hmain v hv hundef

/-- Counterexample for C9 as stated: on the message `{ value: null }` the
handler evaluates `message.value[0]` on `null` and throws. -/
theorem C9_value_onexecuted_counterexample :
    onExecutedValue ⟨"Value", false⟩ (some ⟨some JSVal.null⟩) = Except.error () := rfl

/-- Witness for the amended C9 at a concrete string-array message. -/
theorem C9_value_onexecuted_safe_witness :
    msgValueOk (some ⟨some (JSVal.arr [JSVal.str "hello"])⟩) ∧
    onExecutedValue ⟨"Value", false⟩ (some ⟨some (JSVal.arr [JSVal.str "hello"])⟩) =
      Except.ok ⟨"hello", false⟩ := by
  have hyp : msgValueOk (some ⟨some (JSVal.arr [JSVal.str "hello"])⟩) := by
    intro m hm
    cases hm
    simp
  refine ⟨hyp, ?_⟩
  have := (C9_value_onexecuted_safe ⟨"Value", false⟩ _ hyp).2.2.2
    ⟨some (JSVal.arr [JSVal.str "hello"])⟩ (JSVal.arr [JSVal.str "hello"]) rfl rfl
    (fun hh => JSVal.noConfusion hh)
  exact this.trans (by rfl)

/-- C10: `mbDisplay.onExecuted` sets the `value` widget to the incoming
string unchanged when its length is at most the node's `max_length`
(default 500 when falsy), and to the first `max_length` characters followed
by `...` otherwise. -/
theorem C10_display_truncation (n : DNode) (ws : List DWidget) (arr : List String) (s : String)
    (hw : n.widgets = some ws)
    (hfound : (ws.find? (fun w => w.name == "value")).isSome = true)
    (h0 : arr.get? 0 = some s) :
    onExecutedDisplay n (some ⟨some arr⟩) =
      Except.ok { n with widgets := some (updateFirstValueWidget (fun w =>
        { w with value :=
            if (s.length : Int) > effectiveMaxLength n.max_length then
              s.take (effectiveMaxLength n.max_length).toNat ++ "..."
            else s }) ws) } := by
  obtain ⟨w, hwfind⟩ := Option.isSome_iff_exists.mp hfound
  unfold onExecutedDisplay
  rw [hw]
  simp only [hwfind, h0]
  rfl

/-- Witness for C10: a 6-character string against `max_length = 4`. -/
theorem C10_display_truncation_witness :
    ((⟨some [⟨"value", ""⟩], some 4⟩ : DNode).widgets = some [⟨"value", ""⟩]) ∧
    onExecutedDisplay ⟨some [⟨"value", ""⟩], some 4⟩ (some ⟨some ["hello!"]⟩) =
      Except.ok ⟨some [⟨"value", "hell..."⟩], some 4⟩ := by
  refine ⟨rfl, ?_⟩
  have := C10_display_truncation ⟨some [⟨"value", ""⟩], some 4⟩ [⟨"value", ""⟩]
    ["hello!"] "hello!" rfl (by decide) rfl
  exact this.trans (by rfl)

/-- C5: on a user-initiated disconnection of a non-special slot when the
slot count exceeds the minimum, the trim step removes the affected slot
exactly when it is the last dynamic slot; a disconnected slot strictly
before the last dynamic slot is never removed by the trim step. -/
theorem C5_trim_removes_only_last (n : Node) (index : Nat) (tr : String) (s : Slot)
    (hcount : n.inputs.length > 1 + convertedCount n)
    (h1 : jsIncludes tr "LGraphNode.prototype.connect" = false)
    (h2 : jsIncludes tr "LGraphNode.connect" = false)
    (h3 : jsIncludes tr "loadGraphData" = false)
    (hidx : n.inputs.get? index = some s)
    (hsp : s.isSpecial = false) :
    trimStep n index false tr =
      (if (index : Int) = lastDynamicIndex n.inputs then
        { n with inputs := n.inputs.eraseIdx index }
      else n) := by
  have hsel : (s.name == "select") = false := by
    have := hsp
    unfold Slot.isSpecial isSpecialName at this
    exact (Bool.or_eq_false_iff.mp this).1
  have hcode : (s.name == "code") = false := by
    have := hsp
    unfold Slot.isSpecial isSpecialName at this
    exact (Bool.or_eq_false_iff.mp this).2
  have hc : decide (n.inputs.length > 1 + convertedCount n) = true := decide_eq_true hcount
  have hb1 : (s.name != "select") = true := by simp [bne, hsel]
  have hb2 : (s.name != "code") = true := by simp [bne, hcode]
  unfold trimStep
  simp only [Bool.not_false, Bool.true_and, hc, hidx, h1, h2, h3, hb1, hb2, Bool.and_true,
    eq_self_iff_true, if_true]

/-- Witness for C5: disconnecting the trailing free slot, which is the last
dynamic slot, removes it. -/
theorem C5_trim_removes_only_last_witness :
    (([⟨"input1", some 1, none⟩, ⟨"input2", none, none⟩] : List Slot).get? 1 =
      some ⟨"input2", none, none⟩) ∧
    trimStep ⟨[⟨"input1", some 1, none⟩, ⟨"input2", none, none⟩], [], none⟩ 1 false "" =
      ⟨[⟨"input1", some 1, none⟩], [], none⟩ := by
  refine ⟨rfl, ?_⟩
  have := C5_trim_removes_only_last
    ⟨[⟨"input1", some 1, none⟩, ⟨"input2", none, none⟩], [], none⟩ 1 ""
    ⟨"input2", none, none⟩ (by decide) (by decide) (by decide) (by decide) rfl rfl
  exact this.trans (by decide)

/-- C7: when the link metadata is absent or the event is not input-side the
handler returns immediately leaving the node unchanged (and, the embedding
being a total function whose every partial access mirrors a guard in the
source, it runs to completion on every input). -/
theorem C7_early_return (inputName : String) (isSelect : Bool) (n : Node)
    (ty index : Nat) (connected : Bool) (linkInfo : Option Unit) (trace : String)
    (h : linkInfo = none ∨ ty ≠ 1) :
    onConnectionsChange inputName isSelect n ty index connected linkInfo trace = n := by
  cases linkInfo with
  | none => rfl
  | some u =>
    cases h with
    | inl h' => exact Option.noConfusion h'
    | inr h' => simp [onConnectionsChange, h']

/-- Witness for C7: a call without link metadata leaves the node unchanged. -/
theorem C7_early_return_witness :
    (((none : Option Unit) = none ∨ (1 : Nat) ≠ 1)) ∧
    onConnectionsChange "input" false ⟨[⟨"input1", none, none⟩], [], none⟩ 1 0 true none "" =
      ⟨[⟨"input1", none, none⟩], [], none⟩ :=
  ⟨Or.inl rfl, C7_early_return "input" false ⟨[⟨"input1", none, none⟩], [], none⟩ 1 0 true none ""
    (Or.inl rfl)⟩

/-- C1: after an input-side invocation with link metadata present, the
number of dynamic slots equals `max 1 (p + 2)` where `p` is the position of
the last connected dynamic slot after the trim step; the normalization step
changes the dynamic-slot list only at its trailing end (common positions
are unchanged) and never removes a slot that currently has a link. -/
theorem C1_normalize_count (nm : String) (hk : isKindName nm) (isSel : Bool) (n : Node)
    (index : Nat) (connected : Bool) (trace : String) :
    ((dynamicSlots (onConnectionsChange nm isSel n 1 index connected (some ()) trace).inputs).length : Int) =
        max 1 (lastConnectedOf (dynamicSlots (trimStep n index connected trace).inputs) + 2) ∧
    (∀ i, i < (dynamicSlots (trimStep n index connected trace).inputs).length →
        i < (dynamicSlots (normalizeStep nm (trimStep n index connected trace)).inputs).length →
        (dynamicSlots (normalizeStep nm (trimStep n index connected trace)).inputs).get? i =
          (dynamicSlots (trimStep n index connected trace).inputs).get? i) ∧
    (∀ s ∈ dynamicSlots (trimStep n index connected trace).inputs, s.link.isSome = true →
        s ∈ dynamicSlots (normalizeStep nm (trimStep n index connected trace)).inputs) := by
  obtain ⟨_, hN2, hN3, _, _⟩ := normalizeStep_spec nm hk (trimStep n index connected trace)
  exact ⟨(handler_spec nm hk isSel n index connected trace).1, hN2, hN3⟩

/-- Witness for C1: a concrete node whose trailing slot was just connected
grows to two dynamic slots. -/
theorem C1_normalize_count_witness :
    isKindName "image" ∧
    (((dynamicSlots (onConnectionsChange "image" false
        ⟨[⟨"image1", some 1, none⟩], [], none⟩ 1 0 true (some ()) "").inputs).length : Int) =
      max 1 (lastConnectedOf (dynamicSlots (trimStep
        ⟨[⟨"image1", some 1, none⟩], [], none⟩ 0 true "").inputs) + 2) ∧
    (∀ i, i < (dynamicSlots (trimStep ⟨[⟨"image1", some 1, none⟩], [], none⟩ 0 true "").inputs).length →
        i < (dynamicSlots (normalizeStep "image" (trimStep ⟨[⟨"image1", some 1, none⟩], [], none⟩ 0 true "")).inputs).length →
        (dynamicSlots (normalizeStep "image" (trimStep ⟨[⟨"image1", some 1, none⟩], [], none⟩ 0 true "")).inputs).get? i =
          (dynamicSlots (trimStep ⟨[⟨"image1", some 1, none⟩], [], none⟩ 0 true "").inputs).get? i) ∧
    (∀ s ∈ dynamicSlots (trimStep ⟨[⟨"image1", some 1, none⟩], [], none⟩ 0 true "").inputs,
        s.link.isSome = true →
        s ∈ dynamicSlots (normalizeStep "image" (trimStep ⟨[⟨"image1", some 1, none⟩], [], none⟩ 0 true "")).inputs)) :=
  ⟨Or.inl rfl, C1_normalize_count "image" (Or.inl rfl) false
    ⟨[⟨"image1", some 1, none⟩], [], none⟩ 0 true ""⟩

/-- Counterexample for C2 as stated: connect `input1`, connect `input2`,
then disconnect `input1` by user action.  One dynamic slot is connected,
yet two dynamic slots are unconnected — the interior gap is kept. -/
theorem C2_counterexample :
    ((dynamicSlots (applyEvent "image" false (applyEvent "image" false (applyEvent "image" false
        ⟨[⟨"image1", none, none⟩], [⟨"image", none, some "IMAGE"⟩], none⟩
        ⟨0, some 1, ""⟩) ⟨1, some 2, ""⟩) ⟨0, none, ""⟩).inputs).filter
      (fun s => s.link.isSome)).length = 1 ∧
    ((dynamicSlots (applyEvent "image" false (applyEvent "image" false (applyEvent "image" false
        ⟨[⟨"image1", none, none⟩], [⟨"image", none, some "IMAGE"⟩], none⟩
        ⟨0, some 1, ""⟩) ⟨1, some 2, ""⟩) ⟨0, none, ""⟩).inputs).filter
      (fun s => s.link.isNone)).length = 2 := by
  decide

/-- C2 (amended): for every sequence of connect/disconnect events processed
by the handler, between invocations exactly one dynamic slot lies strictly
after the last connected dynamic slot (it is unconnected), and when zero
dynamic slots are connected exactly one dynamic slot exists; interior
dynamic slots may additionally be unconnected. -/
theorem C2_trailing_invariant (nm : String) (hk : isKindName nm) (isSel : Bool) (n0 : Node)
    (h0 : dynInv n0) (events : List Event) :
    dynInv (events.foldl (applyEvent nm isSel) n0) := by
  induction events generalizing n0 with
  | nil => exact h0
  | cons e es ih =>
    rw [List.foldl_cons]
    apply ih
    unfold dynInv applyEvent
    obtain ⟨h1, h2, _, _⟩ := handler_spec nm hk isSel
      { n0 with inputs := setSlotLink n0.inputs e.idx e.lk } e.idx e.lk.isSome e.trace
    rw [h1, h2]

/-- Witness for the amended C2 on the three-event trace of the
counterexample. -/
theorem C2_trailing_invariant_witness :
    isKindName "image" ∧ dynInv (⟨[⟨"image1", none, none⟩], [⟨"image", none, some "IMAGE"⟩], none⟩ : Node) ∧
    dynInv ([(⟨0, some 1, ""⟩ : Event), ⟨1, some 2, ""⟩, ⟨0, none, ""⟩].foldl
      (applyEvent "image" false) ⟨[⟨"image1", none, none⟩], [⟨"image", none, some "IMAGE"⟩], none⟩) := by
  refine ⟨Or.inl rfl, by unfold dynInv; decide, ?_⟩
  exact C2_trailing_invariant "image" (Or.inl rfl) false _ (by unfold dynInv; decide) _

/-- C3: after an input-side invocation with link metadata present, the
`j`-th dynamic slot (0-based) is named `<prefix><j+1>`: suffixes are
1-based, strictly increasing, without gaps. -/
theorem C3_rename_sequential (nm : String) (hk : isKindName nm) (isSel : Bool) (n : Node)
    (index : Nat) (connected : Bool) (trace : String) (j : Nat) (s : Slot)
    (h : (dynamicSlots (onConnectionsChange nm isSel n 1 index connected (some ()) trace).inputs).get? j =
      some s) :
    s.name = nm ++ toString (j + 1) := by
  have h4 := (handler_spec nm hk isSel n index connected trace).2.2.2
  rw [h4] at h
  have hn := renameLoop_dyn_names nm hk 1 _ j s h
  rw [hn]
  have harith : 1 + j = j + 1 := by omega
  rw [harith]

/-- Witness for C3 at a concrete invocation: the first dynamic slot of the
result is named `image1`. -/
theorem C3_rename_sequential_witness :
    ((dynamicSlots (onConnectionsChange "image" false
        ⟨[⟨"x", some 1, none⟩], [], none⟩ 1 0 true (some ()) "").inputs).get? 0 =
      some ⟨"image1", some 1, none⟩) ∧
    (⟨"image1", some 1, none⟩ : Slot).name = "image" ++ toString (0 + 1) := by
  refine ⟨by decide, ?_⟩
  exact C3_rename_sequential "image" (Or.inl rfl) false ⟨[⟨"x", some 1, none⟩], [], none⟩
    0 true "" 0 ⟨"image1", some 1, none⟩ (by decide)

/-- Counterexample for C4 as stated: after connect, connect, disconnect the
first input of an mbSelect node, exactly one dynamic slot is connected
(N = 1) but the select widget's range is `[1, 2]`, because the code uses
the 1-based position of the last connected slot, not the connected count. -/
theorem C4_counterexample :
    ((dynamicSlots (applyEvent "input" true (applyEvent "input" true (applyEvent "input" true
        ⟨[⟨"input1", none, none⟩], [⟨"output", none, some "*"⟩], some [⟨"select", none, some 1⟩]⟩
        ⟨0, some 1, ""⟩) ⟨1, some 2, ""⟩) ⟨0, none, ""⟩).inputs).filter
      (fun s => s.link.isSome)).length = 1 ∧
    (findSelectW (applyEvent "input" true (applyEvent "input" true (applyEvent "input" true
        ⟨[⟨"input1", none, none⟩], [⟨"output", none, some "*"⟩], some [⟨"select", none, some 1⟩]⟩
        ⟨0, some 1, ""⟩) ⟨1, some 2, ""⟩) ⟨0, none, ""⟩).widgets).map Widget.options =
      some (some ⟨some 1, some 2⟩) ∧
    ¬((findSelectW (applyEvent "input" true (applyEvent "input" true (applyEvent "input" true
        ⟨[⟨"input1", none, none⟩], [⟨"output", none, some "*"⟩], some [⟨"select", none, some 1⟩]⟩
        ⟨0, some 1, ""⟩) ⟨1, some 2, ""⟩) ⟨0, none, ""⟩).widgets).map Widget.options =
      some (some ⟨some 1, some 1⟩)) := by
  refine ⟨by decide, by decide, by decide⟩

/-- C4 (amended): after every input-side invocation with link metadata
present on an mbSelect node with a `select` widget, if `L` is the 0-based
position of the last connected dynamic slot then: with no connected dynamic
slot (`L = -1`) the options collapse to `[0, 0]` and the value to `0`;
otherwise `min = 1`, `max = L + 1` (the 1-based position of the last
connected dynamic slot) and the value is clamped into `[1, L + 1]`. -/
theorem C4_select_range (nm : String) (n : Node)
    (index : Nat) (connected : Bool) (trace : String) (w : Widget)
    (hw : findSelectW n.widgets = some w) :
    (lastConnectedOf (dynamicSlots (onConnectionsChange nm true n 1 index connected (some ()) trace).inputs) = -1 →
      findSelectW (onConnectionsChange nm true n 1 index connected (some ()) trace).widgets =
        some { w with options := some ⟨some 0, some 0⟩, value := some 0 } ∧
      ∀ s ∈ dynamicSlots (onConnectionsChange nm true n 1 index connected (some ()) trace).inputs,
        s.link = none) ∧
    (lastConnectedOf (dynamicSlots (onConnectionsChange nm true n 1 index connected (some ()) trace).inputs) ≠ -1 →
      findSelectW (onConnectionsChange nm true n 1 index connected (some ()) trace).widgets =
        some { w with
          options := some ⟨some 1,
            some (lastConnectedOf (dynamicSlots (onConnectionsChange nm true n 1 index connected (some ()) trace).inputs) + 1)⟩,
          value := some (min (max (jsOr0 w.value) 1)
            (lastConnectedOf (dynamicSlots (onConnectionsChange nm true n 1 index connected (some ()) trace).inputs) + 1)) }) := by
  cases hnw : n.widgets with
  | none =>
    exfalso
    rw [findSelectW, hnw] at hw
    exact Option.noConfusion hw
  | some ws =>
    have hres : onConnectionsChange nm true n 1 index connected (some ()) trace =
        selectStep true (renameStep nm (normalizeStep nm (trimStep n index connected trace))) := by
      unfold onConnectionsChange
      rw [if_neg (by simp)]
    have hw3 : (renameStep nm (normalizeStep nm (trimStep n index connected trace))).widgets = some ws := by
      show (normalizeStep nm (trimStep n index connected trace)).widgets = some ws
      rw [normalizeStep_widgets, trimStep_widgets, hnw]
    have hfindws : ws.find? (fun w' => w'.name == "select") = some w := by
      rw [findSelectW, hnw] at hw
      exact hw
    have hIeq : (onConnectionsChange nm true n 1 index connected (some ()) trace).inputs =
        (renameStep nm (normalizeStep nm (trimStep n index connected trace))).inputs := by
      rw [hres, selectStep_inputs]
    have hwid : (onConnectionsChange nm true n 1 index connected (some ()) trace).widgets =
        some (updateFirstSelect (updateSelect (lastConnectedOf (dynamicSlots
          (onConnectionsChange nm true n 1 index connected (some ()) trace).inputs))) ws) := by
      rw [hres, selectStep_find _ ws hw3, ← hIeq]
      rw [hres]
    have hfind : findSelectW (onConnectionsChange nm true n 1 index connected (some ()) trace).widgets =
        some (updateSelect (lastConnectedOf (dynamicSlots
          (onConnectionsChange nm true n 1 index connected (some ()) trace).inputs)) w) := by
      rw [findSelectW, hwid]
      show (updateFirstSelect _ ws).find? (fun w' => w'.name == "select") = _
      rw [findSelect_updateFirstSelect _ (updateSelect_name _) ws, hfindws]
      rfl
    constructor
    · intro hL
      constructor
      · rw [hfind, hL]
        unfold updateSelect
        rw [if_pos rfl]
      · exact lastConnectedOf_none_of_neg _ hL
    · intro hL
      rw [hfind]
      unfold updateSelect
      rw [if_neg hL]

/-- Witness for the amended C4 at a concrete invocation with one connected
dynamic slot (last connected position 0, so the range is `[1, 1]`). -/
theorem C4_select_range_witness :
    (findSelectW (some [(⟨"select", none, some 1⟩ : Widget)]) = some ⟨"select", none, some 1⟩) ∧
    findSelectW (onConnectionsChange "input" true
        ⟨[⟨"input1", some 5, none⟩, ⟨"input2", none, none⟩], [], some [⟨"select", none, some 1⟩]⟩
        1 0 true (some ()) "").widgets =
      some ⟨"select", some ⟨some 1, some 1⟩, some 1⟩ := by
  refine ⟨rfl, ?_⟩
  have := (C4_select_range "input"
    ⟨[⟨"input1", some 5, none⟩, ⟨"input2", none, none⟩], [], some [⟨"select", none, some 1⟩]⟩
    0 true "" ⟨"select", none, some 1⟩ rfl).2 (by decide)
  exact this.trans (by decide)

/-- C6: every invocation of the handler — including early returns — leaves
the sequence of special (`select`/`code`) input slots unchanged: same
slots, same relative order, names and types untouched. -/
theorem C6_specials_preserved (nm : String) (hk : isKindName nm) (isSel : Bool) (n : Node)
    (ty index : Nat) (connected : Bool) (linkInfo : Option Unit) (trace : String) :
    specialSlots (onConnectionsChange nm isSel n ty index connected linkInfo trace).inputs =
      specialSlots n.inputs := by
  cases linkInfo with
  | none => rfl
  | some u =>
    by_cases hty : ty = 1
    · subst hty
      exact (handler_spec nm hk isSel n index connected trace).2.2.1
    · unfold onConnectionsChange
      rw [if_pos hty]

/-- Witness for C6: a select input slot survives an invocation that grows
the dynamic slots. -/
theorem C6_specials_preserved_witness :
    isKindName "input" ∧
    specialSlots (onConnectionsChange "input" true
        ⟨[⟨"select", none, some "INT"⟩, ⟨"input1", some 1, none⟩], [], none⟩
        1 1 true (some ()) "").inputs =
      specialSlots ([⟨"select", none, some "INT"⟩, ⟨"input1", some 1, none⟩] : List Slot) := by
  refine ⟨Or.inr (Or.inr (Or.inr rfl)), ?_⟩
  exact C6_specials_preserved "input" (Or.inr (Or.inr (Or.inr rfl))) true
    ⟨[⟨"select", none, some "INT"⟩, ⟨"input1", some 1, none⟩], [], none⟩ 1 1 true (some ()) ""

end Mockba
